import Mathlib

/-!
Verification of `MlflowClient` (`mlflow/tracking/client.py`).

Shallow embedding conventions:
* Python dicts become association lists (`Dict α`) whose key lists are
  nodup (`WfDict`); lookup is first-match, iteration follows list order.
* Pandas/numpy cell values become the inductive `Cell`: Python strings,
  numeric metric values (carried as `Int`, no arithmetic is performed on
  them), the Python `None` marker, the `np.nan` marker, and the
  `datetime.datetime.fromtimestamp` value, represented by its whole-second
  argument (`fromtimestamp` is injective on whole seconds for a fixed
  process, so this is faithful).
* `int(start_time / 1e3)` becomes `Int.tdiv start_time 1000`: Python's
  `int()` truncates toward zero, as does `Int.tdiv`.
* The DataFrame column names `"date"`, ..., `"metrics." + k`,
  `"params." + k`, `"tags." + k` become the inductive `ColName`; the
  string renaming is injective (the three dotted namespaces and the five
  fixed names are pairwise distinct), so `ColName` is a faithful image.
* The new-key sets `run.data.params.keys() - param_keys` are iterated in
  the run's dict order (Python iterates a set in unspecified order; the
  spec guarantees nothing about column order, so any deterministic
  order is a faithful choice).
-/

namespace MlflowSpec

/-- A pandas cell value, as produced by `runs_to_pandas`. -/
inductive Cell where
  | pyStr : String → Cell
  | pyNum : Int → Cell
  | pyNone : Cell
  | pyNaN : Cell
  | pyDate : Int → Cell
deriving DecidableEq, Repr

/-- A Python dict, in iteration order. -/
abbrev Dict (α : Type) := List (String × α)

/-- Lookup `d[k]` / `d.get(k)`: first match wins. -/
def alookup (d : Dict α) (k : String) : Option α :=
  (d.find? (fun kv => kv.1 == k)).map (·.2)

/-- The key list `d.keys()`, in iteration order. -/
def keysOf (d : Dict α) : List String := d.map (·.1)

/-- A Python dict has no duplicate keys. -/
def WfDict (d : Dict α) : Prop := (keysOf d).Nodup

/-- The fields of `mlflow.entities.RunInfo` used by the client. -/
structure RunInfo where
  run_id : String
  user_id : String
  start_time : Int
deriving DecidableEq, Repr

/-- The fields of `mlflow.entities.RunData` used by the client:
metric, param and tag dicts. -/
structure RunData where
  metrics : Dict Int
  params : Dict String
  tags : Dict String
deriving DecidableEq, Repr

/-- An `mlflow.entities.Run`. -/
structure Run where
  info : RunInfo
  data : RunData
deriving DecidableEq, Repr

/-- The run's dicts are genuine Python dicts (nodup keys). -/
def WfRun (r : Run) : Prop :=
  WfDict r.data.metrics ∧ WfDict r.data.params ∧ WfDict r.data.tags

instance : DecidablePred WfRun := fun r => by
  unfold WfRun WfDict; infer_instance

/-- The cell the loop body appends to an existing column with key `k`:
the run's value when present, the kind's null sentinel otherwise
(`params[key].append(run.data.params[key])` / `.append(PARAM_NULL)`). -/
def dictCell (nullC : Cell) (mk : α → Cell) (d : Dict α) (k : String) : Cell :=
  match alookup d k with
  | some v => mk v
  | none => nullC

/-- Membership test `key in cols` for the accumulated column dicts. -/
def hasCol (cols : Dict (List Cell)) (k : String) : Bool :=
  cols.any (fun kc => kc.1 == k)

/-- One kind's slice of the loop body at run index `i`: append to every
existing column (value or null sentinel), then create a column for every
new key passing `keep`, back-filled with `i` null sentinels
(`params[p] = [PARAM_NULL]*i; params[p].append(...)`). -/
def stepCols (nullC : Cell) (mk : α → Cell) (keep : String → Bool) (i : Nat)
    (cols : Dict (List Cell)) (d : Dict α) : Dict (List Cell) :=
  (cols.map fun kc => (kc.1, kc.2 ++ [dictCell nullC mk d kc.1]))
    ++ ((d.filter fun kv => keep kv.1 && !hasCol cols kv.1).map
        fun kv => (kv.1, List.replicate i nullC ++ [mk kv.2]))

/-- The accumulator of `runs_to_pandas`: the five `info` lists and the
three dynamic-column dicts. -/
structure PdState where
  date : List Cell
  run_id : List Cell
  run_name : List Cell
  parent_run_id : List Cell
  user_id : List Cell
  metrics : Dict (List Cell)
  params : Dict (List Cell)
  tags : Dict (List Cell)
deriving DecidableEq, Repr

/-- The state before the loop. -/
def PdState.empty : PdState :=
  ⟨[], [], [], [], [], [], [], []⟩

/-- Evaluate `run.data.tags.get('mlflow.runName', None)` as a cell. -/
def tagOrNone (d : Dict String) (k : String) : Cell :=
  match alookup d k with
  | some v => Cell.pyStr v
  | none => Cell.pyNone

/-- Python `t.startswith("mlflow.")`, evaluated on the character
sequence (`String.startsWith` agrees with character-list matching). -/
def startsWithMlflow (k : String) : Bool :=
  "mlflow.".data.isPrefixOf k.data

/-- The `keep` filter for tags: `if not t.startswith("mlflow.")`. -/
def tagKeep (k : String) : Bool := !(startsWithMlflow k)

/-- The body of the `for i, run in enumerate(runs)` loop. -/
def processRun (i : Nat) (st : PdState) (r : Run) : PdState where
  date := st.date ++ [Cell.pyDate (Int.tdiv r.info.start_time 1000)]
  run_id := st.run_id ++ [Cell.pyStr r.info.run_id]
  run_name := st.run_name ++ [tagOrNone r.data.tags "mlflow.runName"]
  parent_run_id := st.parent_run_id ++ [tagOrNone r.data.tags "mlflow.parentRunId"]
  user_id := st.user_id ++ [Cell.pyStr r.info.user_id]
  metrics := stepCols Cell.pyNaN Cell.pyNum (fun _ => true) i st.metrics r.data.metrics
  params := stepCols Cell.pyNone Cell.pyStr (fun _ => true) i st.params r.data.params
  tags := stepCols Cell.pyNone Cell.pyStr tagKeep i st.tags r.data.tags

/-- The loop, carrying the enumeration index. -/
def runsLoop (i : Nat) (st : PdState) : List Run → PdState
  | [] => st
  | r :: rs => runsLoop (i + 1) (processRun i st r) rs

/-- The state after the whole loop. -/
def pivotState (runs : List Run) : PdState :=
  runsLoop 0 PdState.empty runs

/-- A DataFrame column name: the five fixed names, and the renamed
dynamic names `metrics.<k>` / `params.<k>` / `tags.<k>`. -/
inductive ColName where
  | date : ColName
  | run_id : ColName
  | run_name : ColName
  | parent_run_id : ColName
  | user_id : ColName
  | metricCol : String → ColName
  | paramCol : String → ColName
  | tagCol : String → ColName
deriving DecidableEq, Repr

/-- The resulting DataFrame: its named columns in insertion order. -/
abbrev DataFrame := List (ColName × List Cell)

/-- The final block: `data` updated with `info`, then the renamed metric,
param and tag columns. -/
def toData (st : PdState) : DataFrame :=
  [(ColName.date, st.date), (ColName.run_id, st.run_id),
   (ColName.run_name, st.run_name), (ColName.parent_run_id, st.parent_run_id),
   (ColName.user_id, st.user_id)]
    ++ st.metrics.map (fun kc => (ColName.metricCol kc.1, kc.2))
    ++ st.params.map (fun kc => (ColName.paramCol kc.1, kc.2))
    ++ st.tags.map (fun kc => (ColName.tagCol kc.1, kc.2))

/-- The pivot `MlflowClient.runs_to_pandas`. -/
def runs_to_pandas (runs : List Run) : DataFrame :=
  toData (pivotState runs)

/-! ### Closed-form description of the pivot -/

/-- Membership test on a plain key list. -/
def hasKey (ks : List String) (k : String) : Bool := ks.any (· == k)

/-- The dynamic-column key list accumulated over a run sequence, starting
from `acc`: each run contributes its keys not yet seen, filtered by
`keep`, in dict order. -/
def colKeysFrom (keep : String → Bool) (proj : Run → Dict α) (acc : List String) :
    List Run → List String
  | [] => acc
  | r :: rs =>
      colKeysFrom keep proj
        (acc ++ (keysOf (proj r)).filter (fun k => keep k && !hasKey acc k)) rs

/-- The dynamic-column key list of a run sequence: keys in order of first
occurrence, keys new in the same run in that run's dict order. -/
def colKeys (keep : String → Bool) (proj : Run → Dict α) (runs : List Run) : List String :=
  colKeysFrom keep proj [] runs

/-- The closed form of one dynamic column: one cell per run, the run's
value when present and the null sentinel otherwise. -/
def specCol (nullC : Cell) (mk : α → Cell) (proj : Run → Dict α)
    (runs : List Run) (k : String) : List Cell :=
  runs.map (fun r => dictCell nullC mk (proj r) k)

/-- The closed form of one kind's column dict. -/
def specCols (nullC : Cell) (mk : α → Cell) (keep : String → Bool)
    (proj : Run → Dict α) (runs : List Run) : Dict (List Cell) :=
  (colKeys keep proj runs).map (fun k => (k, specCol nullC mk proj runs k))

/-- The closed form of the whole loop state. -/
def specState (runs : List Run) : PdState where
  date := runs.map (fun r => Cell.pyDate (Int.tdiv r.info.start_time 1000))
  run_id := runs.map (fun r => Cell.pyStr r.info.run_id)
  run_name := runs.map (fun r => tagOrNone r.data.tags "mlflow.runName")
  parent_run_id := runs.map (fun r => tagOrNone r.data.tags "mlflow.parentRunId")
  user_id := runs.map (fun r => Cell.pyStr r.info.user_id)
  metrics := specCols Cell.pyNaN Cell.pyNum (fun _ => true) (fun r => r.data.metrics) runs
  params := specCols Cell.pyNone Cell.pyStr (fun _ => true) (fun r => r.data.params) runs
  tags := specCols Cell.pyNone Cell.pyStr tagKeep (fun r => r.data.tags) runs

/-! ### Row-wise reconstruction of Run-like records (for the pivot
round trip) -/

/-- Extract the string of a string cell (`run_id` / `user_id` rows are
always strings). -/
def cellStr : Cell → String
  | Cell.pyStr s => s
  | _ => ""

/-- Extract a possibly-null string cell as an optional entry. -/
def cellOptStr : Cell → Option String
  | Cell.pyStr s => some s
  | _ => none

/-- Extract the whole-second value of a date cell. -/
def cellDate : Cell → Int
  | Cell.pyDate s => s
  | _ => 0

/-- Extract a metric cell as an optional numeric value. -/
def cellOptNum : Cell → Option Int
  | Cell.pyNum v => some v
  | _ => none

/-- The named column of a frame, defaulting to the empty column. -/
def colOf (df : DataFrame) (n : ColName) : List Cell :=
  ((df.find? (fun p => p.1 == n)).map (·.2)).getD []

/-- The metric keys of a frame, in column order. -/
def metricKeysOf (df : DataFrame) : List String :=
  df.filterMap (fun p => match p.1 with | ColName.metricCol k => some k | _ => none)

/-- The param keys of a frame, in column order. -/
def paramKeysOf (df : DataFrame) : List String :=
  df.filterMap (fun p => match p.1 with | ColName.paramCol k => some k | _ => none)

/-- The tag keys of a frame, in column order. -/
def tagKeysOf (df : DataFrame) : List String :=
  df.filterMap (fun p => match p.1 with | ColName.tagCol k => some k | _ => none)

/-- Rebuild the Run-like record of row `j`: the fixed cells give the
info fields (the date cell gives back a whole-second start time) and the
two reserved tags; each dynamic column holding a real value in row `j`
gives one metric / param / tag entry. -/
def rowToRun (df : DataFrame) (j : Nat) : Run where
  info :=
    { run_id := cellStr ((colOf df ColName.run_id).getD j Cell.pyNone)
      user_id := cellStr ((colOf df ColName.user_id).getD j Cell.pyNone)
      start_time := cellDate ((colOf df ColName.date).getD j Cell.pyNone) * 1000 }
  data :=
    { metrics := (metricKeysOf df).filterMap
        (fun k => (cellOptNum ((colOf df (ColName.metricCol k)).getD j Cell.pyNone)).map
          (fun v => (k, v)))
      params := (paramKeysOf df).filterMap
        (fun k => (cellOptStr ((colOf df (ColName.paramCol k)).getD j Cell.pyNone)).map
          (fun v => (k, v)))
      tags :=
        (match cellOptStr ((colOf df ColName.run_name).getD j Cell.pyNone) with
          | some v => [("mlflow.runName", v)]
          | none => [])
        ++ (match cellOptStr ((colOf df ColName.parent_run_id).getD j Cell.pyNone) with
            | some v => [("mlflow.parentRunId", v)]
            | none => [])
        ++ (tagKeysOf df).filterMap
          (fun k => (cellOptStr ((colOf df (ColName.tagCol k)).getD j Cell.pyNone)).map
            (fun v => (k, v))) }

/-- Rebuild one Run-like record per row of the frame. -/
def reconstruct (df : DataFrame) : List Run :=
  (List.range (colOf df ColName.run_id).length).map (rowToRun df)

/-- The dynamic entries rebuilt from a key list: one entry per key the
dict holds, in key-list order. -/
def recDict (ks : List String) (d : Dict α) : Dict α :=
  ks.filterMap (fun k => (alookup d k).map (fun v => (k, v)))

/-- An optional single-entry dict. -/
def optEntry (k : String) (o : Option String) : Dict String :=
  match o with
  | some v => [(k, v)]
  | none => []

/-- The closed form of one reconstructed row of the pivot of `runs`:
row `j` rebuilds run `j` with its start time truncated to the whole
second, its dynamic dicts reordered along the global key lists, and
only the two surfaced reserved tags kept. -/
def recRun (km kp kt : List String) (r : Run) : Run where
  info :=
    { run_id := r.info.run_id
      user_id := r.info.user_id
      start_time := Int.tdiv r.info.start_time 1000 * 1000 }
  data :=
    { metrics := recDict km r.data.metrics
      params := recDict kp r.data.params
      tags := optEntry "mlflow.runName" (alookup r.data.tags "mlflow.runName")
           ++ optEntry "mlflow.parentRunId" (alookup r.data.tags "mlflow.parentRunId")
           ++ recDict kt r.data.tags }

/-! ### `search_runs` and `create_run` -/

/-- A Python experiment id: an int or a str. -/
inductive ExpId where
  | num : Int → ExpId
  | str : String → ExpId
deriving DecidableEq, Repr

/-- The `experiment_ids` argument of `search_runs`: a single int, a
single str, or a list of ids. -/
inductive ExperimentIds where
  | single_int : Int → ExperimentIds
  | single_str : String → ExperimentIds
  | id_list : List ExpId → ExperimentIds
deriving DecidableEq, Repr

/-- A run view type (`mlflow.entities.ViewType`). -/
inductive ViewType where
  | active_only : ViewType
  | deleted_only : ViewType
  | all_runs : ViewType
deriving DecidableEq, Repr

/-- The argument record forwarded to `store.search_runs`. -/
structure SearchCall where
  experiment_ids : List ExpId
  filter_string : String
  run_view_type : ViewType
  max_results : Int
  order_by : Option (List String)
deriving DecidableEq, Repr

/-- The client `MlflowClient.search_runs`: wrap a bare int or str id in a
one-element list, then forward every argument to the store. -/
def search_runs (experiment_ids : ExperimentIds) (filter_string : String)
    (run_view_type : ViewType) (max_results : Int)
    (order_by : Option (List String)) : SearchCall :=
  let ids := match experiment_ids with
    | ExperimentIds.single_int n => [ExpId.num n]
    | ExperimentIds.single_str s => [ExpId.str s]
    | ExperimentIds.id_list l => l
  ⟨ids, filter_string, run_view_type, max_results, order_by⟩

/-- An `mlflow.entities.RunTag`. -/
structure RunTag where
  key : String
  value : String
deriving DecidableEq, Repr

/-- The argument record forwarded to `store.create_run`. -/
structure CreateRunCall where
  experiment_id : Int
  user_id : String
  start_time : Int
  tags : List RunTag
deriving DecidableEq, Repr

/-- The reserved user tag `mlflow.utils.mlflow_tags.MLFLOW_USER`. -/
def MLFLOW_USER : String := "mlflow.user"

/-- The client `MlflowClient.create_run`: `tags = tags if tags else {}`
(`None` and the empty dict both become `{}`), the user id is
`tags.get(MLFLOW_USER, "unknown")`, the start time is
`start_time or int(time.time() * 1000)` (Python truthiness: both `None`
and `0` fall back to the current time `now`), and the tags are forwarded
in full as `RunTag` pairs in dict order. `pyDictOrEmpty` is the
`tags if tags else {}` normalisation. -/
def pyDictOrEmpty (tags : Option (Dict String)) : Dict String :=
  match tags with
  | none => []
  | some t => t

/-- The client `MlflowClient.create_run` (see `pyDictOrEmpty` above for
the tag normalisation). -/
def create_run (experiment_id : Int) (start_time : Option Int) (now : Int)
    (tags : Option (Dict String)) : CreateRunCall where
  experiment_id := experiment_id
  user_id :=
    match alookup (pyDictOrEmpty tags) MLFLOW_USER with
    | some v => v
    | none => "unknown"
  start_time :=
    match start_time with
    | none => now
    | some t => if t = 0 then now else t
  tags := (pyDictOrEmpty tags).map (fun kv => RunTag.mk kv.1 kv.2)

/-! ### Concrete sample data for witnesses -/

/-- A sample run: one metric, one param, one plain tag and a reserved
run-name tag. -/
def wRun1 : Run :=
  ⟨⟨"id1", "alice", 1500⟩,
   ⟨[("mse", 2)], [("lr", "01")], [("stage", "dev"), ("mlflow.runName", "first")]⟩⟩

/-- A third sample run whose start time shares wRun1's whole second. -/
def wRun3 : Run :=
  ⟨⟨"id3", "carol", 1001⟩, ⟨[], [], []⟩⟩

/-- A second sample run introducing new keys and a reserved
parent-run-id tag. -/
def wRun2 : Run :=
  ⟨⟨"id2", "bob", 2500⟩,
   ⟨[("mse", 6), ("loss", 1)], [("depth", "3")],
    [("mlflow.parentRunId", "id1"), ("team", "ml")]⟩⟩

end MlflowSpec

namespace MlflowSpec

/-! ### Lookup and key-list lemmas -/

variable {α β : Type}

@[simp] theorem alookup_nil (k : String) : alookup ([] : Dict α) k = none := rfl

@[simp] theorem keysOf_nil : keysOf ([] : Dict α) = [] := rfl

@[simp] theorem keysOf_cons (kv : String × α) (d : Dict α) :
    keysOf (kv :: d) = kv.1 :: keysOf d := rfl

theorem alookup_cons (k k' : String) (v : α) (d : Dict α) :
    alookup ((k, v) :: d) k' = if k = k' then some v else alookup d k' := by
  simp only [alookup, List.find?_cons]
  by_cases h : k = k'
  · simp [h]
  · have hb : (k == k') = false := by simp [h]
    simp [h, hb]

theorem alookup_isSome {d : Dict α} {k : String} :
    (alookup d k).isSome = true ↔ k ∈ keysOf d := by
  induction d with
  | nil => simp
  | cons kv rest ih =>
    obtain ⟨k', v⟩ := kv
    rw [alookup_cons]
    by_cases h : k' = k
    · simp [h, ih]
    · simp only [alookup_cons, if_neg h, keysOf_cons, List.mem_cons, ih]
      constructor
      · exact Or.inr
      · rintro (he | hm)
        · exact absurd he.symm h
        · exact hm

theorem alookup_eq_none {d : Dict α} {k : String} :
    alookup d k = none ↔ k ∉ keysOf d := by
  rw [← alookup_isSome]
  cases alookup d k <;> simp

theorem hasKey_eq_true {ks : List String} {k : String} :
    hasKey ks k = true ↔ k ∈ ks := by
  simp [hasKey, List.any_eq_true]

theorem hasKey_eq_false {ks : List String} {k : String} :
    hasKey ks k = false ↔ k ∉ ks := by
  simp [← hasKey_eq_true]

end MlflowSpec

namespace MlflowSpec

theorem alookup_mem_of_wf {d : Dict α} {k : String} {v : α}
    (hd : WfDict d) (hm : (k, v) ∈ d) : alookup d k = some v := by
  induction d with
  | nil => cases hm
  | cons kv rest ih =>
    obtain ⟨k', v'⟩ := kv
    obtain ⟨hk, hr⟩ := List.nodup_cons.mp hd
    rcases List.mem_cons.mp hm with he | hm'
    · obtain ⟨h1, h2⟩ := Prod.mk.injEq .. ▸ he
      simp [alookup_cons, h1, h2]
    · have hne : k' ≠ k := by
        intro he'
        exact hk (he' ▸ (List.mem_map.mpr ⟨(k, v), hm', rfl⟩))
      rw [alookup_cons, if_neg hne]
      exact ih hr hm'

theorem mem_of_alookup {d : Dict α} {k : String} {v : α}
    (h : alookup d k = some v) : (k, v) ∈ d := by
  induction d with
  | nil => simp [alookup] at h
  | cons kv rest ih =>
    obtain ⟨k', v'⟩ := kv
    rw [alookup_cons] at h
    by_cases he : k' = k
    · rw [if_pos he] at h
      obtain rfl := Option.some.inj h
      subst he
      exact List.mem_cons_self _ _
    · rw [if_neg he] at h
      exact List.mem_cons.mpr (Or.inr (ih h))

theorem colKeysFrom_append (keep : String → Bool) (proj : Run → Dict α)
    (acc : List String) (l1 l2 : List Run) :
    colKeysFrom keep proj acc (l1 ++ l2)
      = colKeysFrom keep proj (colKeysFrom keep proj acc l1) l2 := by
  induction l1 generalizing acc with
  | nil => simp [colKeysFrom]
  | cons r rs ih => simp [colKeysFrom, ih]

theorem colKeys_append_single (keep : String → Bool) (proj : Run → Dict α)
    (runs : List Run) (r : Run) :
    colKeys keep proj (runs ++ [r])
      = colKeys keep proj runs
        ++ (keysOf (proj r)).filter
            (fun k => keep k && !hasKey (colKeys keep proj runs) k) := by
  unfold colKeys
  rw [colKeysFrom_append]
  rfl

theorem mem_colKeysFrom {keep : String → Bool} {proj : Run → Dict α} {k : String} :
    ∀ {rs : List Run} {acc : List String},
    k ∈ colKeysFrom keep proj acc rs
      ↔ k ∈ acc ∨ (keep k = true ∧ ∃ r ∈ rs, k ∈ keysOf (proj r)) := by
  intro rs
  induction rs with
  | nil => intro acc; simp [colKeysFrom]
  | cons r rs ih =>
    intro acc
    rw [colKeysFrom, ih]
    simp only [List.mem_append, List.mem_filter, Bool.and_eq_true,
      Bool.not_eq_true', hasKey_eq_true, List.mem_cons]
    constructor
    · rintro ((ha | ⟨hkeys, hkeep, _⟩) | ⟨hkeep, r', hr', hkeys⟩)
      · exact Or.inl ha
      · exact Or.inr ⟨hkeep, r, Or.inl rfl, hkeys⟩
      · exact Or.inr ⟨hkeep, r', Or.inr hr', hkeys⟩
    · rintro (ha | ⟨hkeep, r', (rfl | hr'), hkeys⟩)
      · exact Or.inl (Or.inl ha)
      · by_cases hacc : k ∈ acc
        · exact Or.inl (Or.inl hacc)
        · exact Or.inl (Or.inr ⟨hkeys, hkeep, hasKey_eq_false.mpr hacc⟩)
      · exact Or.inr ⟨hkeep, r', hr', hkeys⟩

theorem mem_colKeys {keep : String → Bool} {proj : Run → Dict α} {k : String}
    {runs : List Run} :
    k ∈ colKeys keep proj runs
      ↔ keep k = true ∧ ∃ r ∈ runs, k ∈ keysOf (proj r) := by
  unfold colKeys
  rw [mem_colKeysFrom]
  exact or_iff_right (List.not_mem_nil k)

theorem nodup_colKeysFrom {keep : String → Bool} {proj : Run → Dict α} :
    ∀ {rs : List Run} {acc : List String}, acc.Nodup →
    (∀ r ∈ rs, WfDict (proj r)) → (colKeysFrom keep proj acc rs).Nodup := by
  intro rs
  induction rs with
  | nil => intro acc ha _; exact ha
  | cons r rs ih =>
    intro acc ha hwf
    rw [colKeysFrom]
    refine ih ?_ (fun r' hr' => hwf r' (List.mem_cons_of_mem r hr'))
    refine List.Nodup.append ha ?_ ?_
    · exact (hwf r (List.mem_cons_self r rs)).filter _
    · intro x hx hx'
      obtain ⟨-, hpred⟩ := List.mem_filter.mp hx'
      obtain ⟨-, hnot⟩ := (Bool.and_eq_true _ _).mp hpred
      rw [Bool.not_eq_true'] at hnot
      exact absurd (hasKey_eq_true.mpr hx) (by simp [hnot])

theorem nodup_colKeys {keep : String → Bool} {proj : Run → Dict α} {runs : List Run}
    (hwf : ∀ r ∈ runs, WfDict (proj r)) : (colKeys keep proj runs).Nodup :=
  nodup_colKeysFrom List.nodup_nil hwf

end MlflowSpec

namespace MlflowSpec

theorem hasCol_specCols (nullC : Cell) (mk : α → Cell) (keep : String → Bool)
    (proj : Run → Dict α) (runs : List Run) (k : String) :
    hasCol (specCols nullC mk keep proj runs) k
      = hasKey (colKeys keep proj runs) k := by
  rw [hasCol, specCols, hasKey]
  induction colKeys keep proj runs with
  | nil => rfl
  | cons a l ih => simp [List.any_cons, ih]

theorem specCol_append (nullC : Cell) (mk : α → Cell) (proj : Run → Dict α)
    (runs : List Run) (r : Run) (k : String) :
    specCol nullC mk proj (runs ++ [r]) k
      = specCol nullC mk proj runs k ++ [dictCell nullC mk (proj r) k] := by
  simp [specCol]

theorem specCol_all_null {nullC : Cell} {mk : α → Cell} {proj : Run → Dict α}
    {runs : List Run} {k : String}
    (h : ∀ r ∈ runs, k ∉ keysOf (proj r)) :
    specCol nullC mk proj runs k = List.replicate runs.length nullC := by
  induction runs with
  | nil => rfl
  | cons r rs ih =>
    rw [specCol, List.map_cons, List.length_cons, List.replicate_succ]
    have h1 : dictCell nullC mk (proj r) k = nullC := by
      rw [dictCell, alookup_eq_none.mpr (h r (List.mem_cons_self r rs))]
    rw [h1]
    congr 1
    exact ih (fun r' hr' => h r' (List.mem_cons_of_mem r hr'))

theorem filter_map_keys_eq (d : Dict α) (hd : WfDict d) (p : String → Bool)
    (g : String → α → β) (g' : String → β)
    (hg : ∀ k v, p k = true → alookup d k = some v → g k v = g' k) :
    (d.filter fun kv => p kv.1).map (fun kv => (kv.1, g kv.1 kv.2))
      = ((keysOf d).filter p).map (fun k => (k, g' k)) := by
  induction d with
  | nil => rfl
  | cons kv rest ih =>
    obtain ⟨k, v⟩ := kv
    obtain ⟨hk, hr⟩ := List.nodup_cons.mp hd
    have hg' : ∀ k' v', p k' = true → alookup rest k' = some v' → g k' v' = g' k' := by
      intro k' v' hp' h'
      refine hg k' v' hp' ?_
      rw [alookup_cons, if_neg ?_]
      · exact h'
      · intro he
        exact hk (he ▸ (List.mem_map.mpr ⟨(k', v'), mem_of_alookup h', rfl⟩))
    by_cases hp : p k = true
    · have hgk : g k v = g' k := hg k v hp (by rw [alookup_cons, if_pos rfl])
      simp [List.filter_cons, hp, ih hr hg', hgk]
    · simp [List.filter_cons, hp, ih hr hg']

theorem stepCols_spec (nullC : Cell) (mk : α → Cell) (keep : String → Bool)
    (proj : Run → Dict α) (runs : List Run) (r : Run) (hwf : WfDict (proj r)) :
    stepCols nullC mk keep runs.length (specCols nullC mk keep proj runs) (proj r)
      = specCols nullC mk keep proj (runs ++ [r]) := by
  conv_rhs => rw [specCols, colKeys_append_single, List.map_append]
  rw [stepCols]
  congr 1
  · rw [specCols, List.map_map]
    refine List.map_congr_left ?_
    intro k hk
    simp only [Function.comp]
    rw [specCol_append]
  · simp only [hasCol_specCols]
    have hstep : ∀ k v,
        (keep k && !hasKey (colKeys keep proj runs) k) = true →
        alookup (proj r) k = some v →
        List.replicate runs.length nullC ++ [mk v]
          = specCol nullC mk proj (runs ++ [r]) k := by
      intro k v hp hlk
      obtain ⟨hkeep, hnew⟩ := (Bool.and_eq_true _ _).mp hp
      rw [Bool.not_eq_true'] at hnew
      have hnotin : ∀ r' ∈ runs, k ∉ keysOf (proj r') := by
        intro r' hr' hkeys
        exact absurd (mem_colKeys.mpr ⟨hkeep, r', hr', hkeys⟩)
          (fun hmem => by rw [hasKey_eq_true.mpr hmem] at hnew; cases hnew)
      rw [specCol_append, specCol_all_null hnotin, dictCell, hlk]
    exact filter_map_keys_eq (proj r) hwf
      (fun k => keep k && !hasKey (colKeys keep proj runs) k)
      (fun _ v => List.replicate runs.length nullC ++ [mk v])
      (fun k => specCol nullC mk proj (runs ++ [r]) k)
      hstep

end MlflowSpec

namespace MlflowSpec

theorem processRun_spec (runs : List Run) (r : Run) (h : WfRun r) :
    processRun runs.length (specState runs) r = specState (runs ++ [r]) := by
  obtain ⟨hm, hp, ht⟩ := h
  rw [processRun, specState]
  conv_rhs => rw [specState]
  congr 1 <;> simp only [List.map_append, List.map_cons, List.map_nil]
  · exact stepCols_spec _ _ _ _ runs r hm
  · exact stepCols_spec _ _ _ _ runs r hp
  · exact stepCols_spec _ _ _ _ runs r ht

theorem runsLoop_spec (rs : List Run) :
    ∀ runs0 : List Run, (∀ r ∈ rs, WfRun r) →
    runsLoop runs0.length (specState runs0) rs = specState (runs0 ++ rs) := by
  induction rs with
  | nil => intro runs0 _; simp [runsLoop]
  | cons r rs ih =>
    intro runs0 hwf
    rw [runsLoop, processRun_spec runs0 r (hwf r (List.mem_cons_self r rs))]
    have hlen : runs0.length + 1 = (runs0 ++ [r]).length := by simp
    rw [hlen, ih (runs0 ++ [r]) (fun r' hr' => hwf r' (List.mem_cons_of_mem r hr'))]
    simp

/-- The master lemma: the loop computes the closed form. -/
theorem pivotState_spec (runs : List Run) (hwf : ∀ r ∈ runs, WfRun r) :
    pivotState runs = specState runs := by
  have hempty : PdState.empty = specState [] := rfl
  have := runsLoop_spec runs [] hwf
  simp only [List.length_nil, List.nil_append] at this
  rw [pivotState, hempty, this]

end MlflowSpec

namespace MlflowSpec

/-! ### Frame-membership helpers -/

theorem length_of_mem_specCols {nullC : Cell} {mk : α → Cell} {keep : String → Bool}
    {proj : Run → Dict α} {runs : List Run} {kc : String × List Cell}
    (h : kc ∈ specCols nullC mk keep proj runs) : kc.2.length = runs.length := by
  rw [specCols] at h
  obtain ⟨k, -, rfl⟩ := List.mem_map.mp h
  simp [specCol]

theorem mem_specCols_of_mem_colKeys {nullC : Cell} {mk : α → Cell} {keep : String → Bool}
    {proj : Run → Dict α} {runs : List Run} {k : String}
    (h : k ∈ colKeys keep proj runs) :
    (k, specCol nullC mk proj runs k) ∈ specCols nullC mk keep proj runs :=
  List.mem_map.mpr ⟨k, h, rfl⟩

theorem mem_specCols_inv {nullC : Cell} {mk : α → Cell} {keep : String → Bool}
    {proj : Run → Dict α} {runs : List Run} {k : String} {c : List Cell}
    (h : (k, c) ∈ specCols nullC mk keep proj runs) :
    k ∈ colKeys keep proj runs ∧ c = specCol nullC mk proj runs k := by
  rw [specCols] at h
  obtain ⟨k', hk', he⟩ := List.mem_map.mp h
  obtain ⟨h1, h2⟩ := Prod.mk.injEq .. ▸ he
  exact ⟨h1 ▸ hk', h2.symm.trans (by rw [h1])⟩

theorem mem_toData_metric {st : PdState} {kc : String × List Cell} (h : kc ∈ st.metrics) :
    (ColName.metricCol kc.1, kc.2) ∈ toData st := by
  rw [toData]
  refine List.mem_append_left _ (List.mem_append_left _ (List.mem_append_right _ ?_))
  exact List.mem_map.mpr ⟨kc, h, rfl⟩

theorem mem_toData_param {st : PdState} {kc : String × List Cell} (h : kc ∈ st.params) :
    (ColName.paramCol kc.1, kc.2) ∈ toData st := by
  rw [toData]
  refine List.mem_append_left _ (List.mem_append_right _ ?_)
  exact List.mem_map.mpr ⟨kc, h, rfl⟩

theorem mem_toData_tag {st : PdState} {kc : String × List Cell} (h : kc ∈ st.tags) :
    (ColName.tagCol kc.1, kc.2) ∈ toData st := by
  rw [toData]
  refine List.mem_append_right _ ?_
  exact List.mem_map.mpr ⟨kc, h, rfl⟩

theorem mem_toData_inv {st : PdState} {n : ColName} {c : List Cell}
    (h : (n, c) ∈ toData st) :
    (n = ColName.date ∧ c = st.date) ∨ (n = ColName.run_id ∧ c = st.run_id)
      ∨ (n = ColName.run_name ∧ c = st.run_name)
      ∨ (n = ColName.parent_run_id ∧ c = st.parent_run_id)
      ∨ (n = ColName.user_id ∧ c = st.user_id)
      ∨ (∃ k, n = ColName.metricCol k ∧ (k, c) ∈ st.metrics)
      ∨ (∃ k, n = ColName.paramCol k ∧ (k, c) ∈ st.params)
      ∨ (∃ k, n = ColName.tagCol k ∧ (k, c) ∈ st.tags) := by
  rw [toData] at h
  rcases List.mem_append.mp h with h3 | ht
  rotate_left
  · obtain ⟨kc, hkc, he⟩ := List.mem_map.mp ht
    obtain ⟨h1, h2⟩ := Prod.mk.injEq .. ▸ he
    exact Or.inr (Or.inr (Or.inr (Or.inr (Or.inr (Or.inr (Or.inr
      ⟨kc.1, h1.symm, h2 ▸ hkc⟩))))))
  rcases List.mem_append.mp h3 with h2 | hp
  rotate_left
  · obtain ⟨kc, hkc, he⟩ := List.mem_map.mp hp
    obtain ⟨h1, h2⟩ := Prod.mk.injEq .. ▸ he
    exact Or.inr (Or.inr (Or.inr (Or.inr (Or.inr (Or.inr (Or.inl
      ⟨kc.1, h1.symm, h2 ▸ hkc⟩))))))
  rcases List.mem_append.mp h2 with h5 | hm
  rotate_left
  · obtain ⟨kc, hkc, he⟩ := List.mem_map.mp hm
    obtain ⟨h1, h2⟩ := Prod.mk.injEq .. ▸ he
    exact Or.inr (Or.inr (Or.inr (Or.inr (Or.inr (Or.inl
      ⟨kc.1, h1.symm, h2 ▸ hkc⟩)))))
  simp only [List.mem_cons, List.not_mem_nil, or_false] at h5
  rcases h5 with h | h | h | h | h
  · exact Or.inl ⟨congrArg Prod.fst h, congrArg Prod.snd h⟩
  · exact Or.inr (Or.inl ⟨congrArg Prod.fst h, congrArg Prod.snd h⟩)
  · exact Or.inr (Or.inr (Or.inl ⟨congrArg Prod.fst h, congrArg Prod.snd h⟩))
  · exact Or.inr (Or.inr (Or.inr (Or.inl ⟨congrArg Prod.fst h, congrArg Prod.snd h⟩)))
  · exact Or.inr (Or.inr (Or.inr (Or.inr (Or.inl
      ⟨congrArg Prod.fst h, congrArg Prod.snd h⟩))))

theorem cell_mem_specCol {nullC : Cell} {mk : α → Cell} {proj : Run → Dict α}
    {runs : List Run} {k : String} {cell : Cell}
    (h : cell ∈ specCol nullC mk proj runs k) : cell = nullC ∨ ∃ v, cell = mk v := by
  rw [specCol] at h
  obtain ⟨r, -, rfl⟩ := List.mem_map.mp h
  cases hl : alookup (proj r) k with
  | none => exact Or.inl (by simp [dictCell, hl])
  | some v => exact Or.inr ⟨v, by simp [dictCell, hl]⟩

end MlflowSpec

namespace MlflowSpec

theorem dyn_col_back_fill {nullC : Cell} {mk : α → Cell} {keep : String → Bool}
    {proj : Run → Dict α} {runs : List Run} {k : String} {i : Nat} (hi : i < runs.length)
    (hpre : ∀ r ∈ runs.take i, k ∉ keysOf (proj r))
    (hat : k ∈ keysOf (proj (runs.get ⟨i, hi⟩)))
    (hkeep : keep k = true) :
    k ∈ colKeys keep proj runs
      ∧ (specCol nullC mk proj runs k).take i = List.replicate i nullC
      ∧ ∃ v, (specCol nullC mk proj runs k).get? i = some (mk v) := by
  refine ⟨mem_colKeys.mpr ⟨hkeep, runs.get ⟨i, hi⟩, List.get_mem .., hat⟩, ?_, ?_⟩
  · rw [specCol, ← List.map_take]
    have hnull : specCol nullC mk proj (runs.take i) k
        = List.replicate (runs.take i).length nullC := specCol_all_null hpre
    rw [specCol] at hnull
    rw [hnull, List.length_take, Nat.min_eq_left (Nat.le_of_lt hi)]
  · obtain ⟨v, hv⟩ := Option.isSome_iff_exists.mp (alookup_isSome.mpr hat)
    refine ⟨v, ?_⟩
    rw [specCol, List.get?_map, List.get?_eq_get hi]
    show some (match alookup (proj (runs.get ⟨i, hi⟩)) k with
      | some v => mk v
      | none => nullC) = some (mk v)
    rw [hv]

/-- C1: for every input sequence of (well-formed) runs, the table is
rectangular: every column of `runs_to_pandas` — fixed or dynamic — has
exactly one entry per input run, and the rows appear in input order
(row `i` of the `run_id` column is run `i`'s id). -/
theorem claim_C1 (runs : List Run) (hwf : ∀ r ∈ runs, WfRun r) :
    (∀ p ∈ runs_to_pandas runs, p.2.length = runs.length)
      ∧ (ColName.run_id, runs.map (fun r => Cell.pyStr r.info.run_id))
          ∈ runs_to_pandas runs := by
  rw [runs_to_pandas, pivotState_spec runs hwf]
  constructor
  · intro p hp
    obtain ⟨n, c⟩ := p
    rcases mem_toData_inv hp with ⟨-, rfl⟩ | ⟨-, rfl⟩ | ⟨-, rfl⟩ | ⟨-, rfl⟩ | ⟨-, rfl⟩
      | ⟨k, -, hk⟩ | ⟨k, -, hk⟩ | ⟨k, -, hk⟩
    · simp [specState]
    · simp [specState]
    · simp [specState]
    · simp [specState]
    · simp [specState]
    · exact length_of_mem_specCols hk
    · exact length_of_mem_specCols hk
    · exact length_of_mem_specCols hk
  · rw [toData]
    refine List.mem_append_left _ (List.mem_append_left _ (List.mem_append_left _ ?_))
    simp [specState]

/-- Witness for C1 at two concrete runs. -/
theorem claim_C1_witness :
    (∀ p ∈ runs_to_pandas [wRun1, wRun2], p.2.length = [wRun1, wRun2].length)
      ∧ (ColName.run_id, [wRun1, wRun2].map (fun r => Cell.pyStr r.info.run_id))
          ∈ runs_to_pandas [wRun1, wRun2] :=
  claim_C1 [wRun1, wRun2] (by decide)

/-- C2: a dynamic key first present in run `i` yields a column with
exactly `i` leading null sentinels and a real value at position `i` —
independently for each kind: a metric key, a param key, or a
non-reserved tag key. -/
theorem claim_C2 (runs : List Run) (hwf : ∀ r ∈ runs, WfRun r)
    (i : Nat) (hi : i < runs.length) (k : String) :
    ((∀ r ∈ runs.take i, k ∉ keysOf r.data.metrics) →
       k ∈ keysOf (runs.get ⟨i, hi⟩).data.metrics →
       ∃ c, (ColName.metricCol k, c) ∈ runs_to_pandas runs
         ∧ c.take i = List.replicate i Cell.pyNaN
         ∧ ∃ v, c.get? i = some (Cell.pyNum v))
  ∧ ((∀ r ∈ runs.take i, k ∉ keysOf r.data.params) →
       k ∈ keysOf (runs.get ⟨i, hi⟩).data.params →
       ∃ c, (ColName.paramCol k, c) ∈ runs_to_pandas runs
         ∧ c.take i = List.replicate i Cell.pyNone
         ∧ ∃ v, c.get? i = some (Cell.pyStr v))
  ∧ ((∀ r ∈ runs.take i, k ∉ keysOf r.data.tags) →
       k ∈ keysOf (runs.get ⟨i, hi⟩).data.tags →
       tagKeep k = true →
       ∃ c, (ColName.tagCol k, c) ∈ runs_to_pandas runs
         ∧ c.take i = List.replicate i Cell.pyNone
         ∧ ∃ v, c.get? i = some (Cell.pyStr v)) := by
  rw [runs_to_pandas, pivotState_spec runs hwf]
  refine ⟨?_, ?_, ?_⟩
  · intro h1 h2
    obtain ⟨hk, ht, hv⟩ :=
      @dyn_col_back_fill Int Cell.pyNaN Cell.pyNum (fun _ => true)
        (fun r => r.data.metrics) runs k i hi h1 h2 rfl
    exact ⟨_, mem_toData_metric (mem_specCols_of_mem_colKeys hk), ht, hv⟩
  · intro h1 h2
    obtain ⟨hk, ht, hv⟩ :=
      @dyn_col_back_fill String Cell.pyNone Cell.pyStr (fun _ => true)
        (fun r => r.data.params) runs k i hi h1 h2 rfl
    exact ⟨_, mem_toData_param (mem_specCols_of_mem_colKeys hk), ht, hv⟩
  · intro h1 h2 h3
    obtain ⟨hk, ht, hv⟩ :=
      @dyn_col_back_fill String Cell.pyNone Cell.pyStr tagKeep
        (fun r => r.data.tags) runs k i hi h1 h2 h3
    exact ⟨_, mem_toData_tag (mem_specCols_of_mem_colKeys hk), ht, hv⟩

/-- Witness for C2: the metric `loss`, the param `depth` and the tag
`team` each first appear in the second run (index 1), so each column
has exactly one leading null; the three parts of the theorem are
applied independently, at a different key each. -/
theorem claim_C2_witness :
    (∃ c, (ColName.metricCol "loss", c) ∈ runs_to_pandas [wRun1, wRun2]
       ∧ c.take 1 = List.replicate 1 Cell.pyNaN ∧ ∃ v, c.get? 1 = some (Cell.pyNum v))
  ∧ (∃ c, (ColName.paramCol "depth", c) ∈ runs_to_pandas [wRun1, wRun2]
       ∧ c.take 1 = List.replicate 1 Cell.pyNone ∧ ∃ v, c.get? 1 = some (Cell.pyStr v))
  ∧ (∃ c, (ColName.tagCol "team", c) ∈ runs_to_pandas [wRun1, wRun2]
       ∧ c.take 1 = List.replicate 1 Cell.pyNone ∧ ∃ v, c.get? 1 = some (Cell.pyStr v)) :=
  ⟨(claim_C2 [wRun1, wRun2] (by decide) 1 (by decide) "loss").1
      (by decide) (by decide),
   (claim_C2 [wRun1, wRun2] (by decide) 1 (by decide) "depth").2.1
      (by decide) (by decide),
   (claim_C2 [wRun1, wRun2] (by decide) 1 (by decide) "team").2.2
      (by decide) (by decide) (by decide)⟩

end MlflowSpec

namespace MlflowSpec

/-- C3: in every table, independently for each kind of column that may
or may not be present: metric-column cells are always the NaN sentinel
or a numeric value (never the None marker), and param- and tag-column
cells are always the None sentinel or a string value (never NaN). -/
theorem claim_C3 (runs : List Run) (hwf : ∀ r ∈ runs, WfRun r)
    (k : String) (c : List Cell) :
    ((ColName.metricCol k, c) ∈ runs_to_pandas runs →
       ∀ cell ∈ c, cell = Cell.pyNaN ∨ ∃ v, cell = Cell.pyNum v)
  ∧ ((ColName.paramCol k, c) ∈ runs_to_pandas runs →
       ∀ cell ∈ c, cell = Cell.pyNone ∨ ∃ v, cell = Cell.pyStr v)
  ∧ ((ColName.tagCol k, c) ∈ runs_to_pandas runs →
       ∀ cell ∈ c, cell = Cell.pyNone ∨ ∃ v, cell = Cell.pyStr v) := by
  rw [runs_to_pandas, pivotState_spec runs hwf]
  refine ⟨?_, ?_, ?_⟩
  · intro hM
    rcases mem_toData_inv hM with ⟨h, -⟩ | ⟨h, -⟩ | ⟨h, -⟩ | ⟨h, -⟩ | ⟨h, -⟩
      | ⟨k', hk, hmem⟩ | ⟨k', hk, hmem⟩ | ⟨k', hk, hmem⟩
    all_goals first
      | exact ColName.noConfusion h
      | (obtain ⟨-, rfl⟩ := mem_specCols_inv hmem
         intro cell hcell
         exact cell_mem_specCol hcell)
      | exact ColName.noConfusion hk
  · intro hP
    rcases mem_toData_inv hP with ⟨h, -⟩ | ⟨h, -⟩ | ⟨h, -⟩ | ⟨h, -⟩ | ⟨h, -⟩
      | ⟨k', hk, hmem⟩ | ⟨k', hk, hmem⟩ | ⟨k', hk, hmem⟩
    all_goals first
      | exact ColName.noConfusion h
      | (obtain ⟨-, rfl⟩ := mem_specCols_inv hmem
         intro cell hcell
         exact cell_mem_specCol hcell)
      | exact ColName.noConfusion hk
  · intro hT
    rcases mem_toData_inv hT with ⟨h, -⟩ | ⟨h, -⟩ | ⟨h, -⟩ | ⟨h, -⟩ | ⟨h, -⟩
      | ⟨k', hk, hmem⟩ | ⟨k', hk, hmem⟩ | ⟨k', hk, hmem⟩
    all_goals first
      | exact ColName.noConfusion h
      | (obtain ⟨-, rfl⟩ := mem_specCols_inv hmem
         intro cell hcell
         exact cell_mem_specCol hcell)
      | exact ColName.noConfusion hk

/-- Witness for C3 at two concrete runs: the three parts of the theorem
are applied independently, at the `mse` metric column, the `lr` param
column and the `stage` tag column. -/
theorem claim_C3_witness :
    (∀ cell ∈ [Cell.pyNum 2, Cell.pyNum 6], cell = Cell.pyNaN ∨ ∃ v, cell = Cell.pyNum v)
  ∧ (∀ cell ∈ [Cell.pyStr "01", Cell.pyNone], cell = Cell.pyNone ∨ ∃ v, cell = Cell.pyStr v)
  ∧ (∀ cell ∈ [Cell.pyStr "dev", Cell.pyNone], cell = Cell.pyNone ∨ ∃ v, cell = Cell.pyStr v) :=
  ⟨(claim_C3 [wRun1, wRun2] (by decide) "mse"
      [Cell.pyNum 2, Cell.pyNum 6]).1 (by decide),
   (claim_C3 [wRun1, wRun2] (by decide) "lr"
      [Cell.pyStr "01", Cell.pyNone]).2.1 (by decide),
   (claim_C3 [wRun1, wRun2] (by decide) "stage"
      [Cell.pyStr "dev", Cell.pyNone]).2.2 (by decide)⟩

/-- C4: one row per run, and row `i`'s fixed cells come from run `i`:
its id, its user id, a date from its start time, and the two reserved
tags (or the null marker when absent). -/
theorem claim_C4 (runs : List Run) (hwf : ∀ r ∈ runs, WfRun r) :
    (∀ p ∈ runs_to_pandas runs, p.2.length = runs.length)
  ∧ (ColName.date, runs.map (fun r => Cell.pyDate (Int.tdiv r.info.start_time 1000)))
      ∈ runs_to_pandas runs
  ∧ (ColName.run_id, runs.map (fun r => Cell.pyStr r.info.run_id)) ∈ runs_to_pandas runs
  ∧ (ColName.run_name, runs.map (fun r => tagOrNone r.data.tags "mlflow.runName"))
      ∈ runs_to_pandas runs
  ∧ (ColName.parent_run_id, runs.map (fun r => tagOrNone r.data.tags "mlflow.parentRunId"))
      ∈ runs_to_pandas runs
  ∧ (ColName.user_id, runs.map (fun r => Cell.pyStr r.info.user_id)) ∈ runs_to_pandas runs := by
  have hlen : ∀ p ∈ runs_to_pandas runs, p.2.length = runs.length := by
    rw [runs_to_pandas, pivotState_spec runs hwf]
    intro p hp
    obtain ⟨n, c⟩ := p
    rcases mem_toData_inv hp with ⟨-, rfl⟩ | ⟨-, rfl⟩ | ⟨-, rfl⟩ | ⟨-, rfl⟩ | ⟨-, rfl⟩
      | ⟨k, -, hk⟩ | ⟨k, -, hk⟩ | ⟨k, -, hk⟩
    · simp [specState]
    · simp [specState]
    · simp [specState]
    · simp [specState]
    · simp [specState]
    · exact length_of_mem_specCols hk
    · exact length_of_mem_specCols hk
    · exact length_of_mem_specCols hk
  rw [runs_to_pandas, pivotState_spec runs hwf, toData]
  rw [runs_to_pandas, pivotState_spec runs hwf, toData] at hlen
  refine ⟨hlen, ?_, ?_, ?_, ?_, ?_⟩ <;>
    · refine List.mem_append_left _ (List.mem_append_left _ (List.mem_append_left _ ?_))
      simp [specState]

/-- Witness for C4 at two concrete runs. -/
theorem claim_C4_witness :
    (∀ p ∈ runs_to_pandas [wRun1, wRun2], p.2.length = [wRun1, wRun2].length)
  ∧ (ColName.date, [wRun1, wRun2].map (fun r => Cell.pyDate (Int.tdiv r.info.start_time 1000)))
      ∈ runs_to_pandas [wRun1, wRun2]
  ∧ (ColName.run_id, [wRun1, wRun2].map (fun r => Cell.pyStr r.info.run_id))
      ∈ runs_to_pandas [wRun1, wRun2]
  ∧ (ColName.run_name, [wRun1, wRun2].map (fun r => tagOrNone r.data.tags "mlflow.runName"))
      ∈ runs_to_pandas [wRun1, wRun2]
  ∧ (ColName.parent_run_id,
      [wRun1, wRun2].map (fun r => tagOrNone r.data.tags "mlflow.parentRunId"))
      ∈ runs_to_pandas [wRun1, wRun2]
  ∧ (ColName.user_id, [wRun1, wRun2].map (fun r => Cell.pyStr r.info.user_id))
      ∈ runs_to_pandas [wRun1, wRun2] :=
  claim_C4 [wRun1, wRun2] (by decide)

/-- C5: a reserved tag key (prefixed by the string `"mlflow."`) never
yields a dynamic tag column. -/
theorem claim_C5 (runs : List Run) (hwf : ∀ r ∈ runs, WfRun r)
    (k : String) (hres : startsWithMlflow k = true) :
    ∀ c, (ColName.tagCol k, c) ∉ runs_to_pandas runs := by
  intro c hc
  rw [runs_to_pandas, pivotState_spec runs hwf] at hc
  rcases mem_toData_inv hc with ⟨h, -⟩ | ⟨h, -⟩ | ⟨h, -⟩ | ⟨h, -⟩ | ⟨h, -⟩
    | ⟨k', hk, hmem⟩ | ⟨k', hk, hmem⟩ | ⟨k', hk, hmem⟩
  all_goals first
    | exact ColName.noConfusion h
    | (injection hk with he
       subst he
       obtain ⟨hcol, -⟩ := mem_specCols_inv hmem
       have hkeep := (mem_colKeys.mp hcol).1
       rw [tagKeep, hres] at hkeep
       simp at hkeep)
    | exact ColName.noConfusion hk

/-- Witness for C5: the reserved key `mlflow.source` has no tag column. -/
theorem claim_C5_witness :
    (ColName.tagCol "mlflow.source", ([] : List Cell)) ∉ runs_to_pandas [wRun1, wRun2] :=
  claim_C5 [wRun1, wRun2] (by decide) "mlflow.source" (by decide) []

/-- C6: the empty run sequence yields the empty frame with exactly the
five fixed columns and no dynamic columns. -/
theorem claim_C6 :
    runs_to_pandas [] =
      [(ColName.date, []), (ColName.run_id, []), (ColName.run_name, []),
       (ColName.parent_run_id, []), (ColName.user_id, [])] := rfl

/-- C8: the date cell is the whole second obtained by truncating
`start_time / 1000` toward zero, so runs whose start times fall in the
same whole second get identical date cells. -/
theorem claim_C8 (runs : List Run) (hwf : ∀ r ∈ runs, WfRun r)
    (i j : Nat) (hi : i < runs.length) (hj : j < runs.length)
    (heq : Int.tdiv (runs.get ⟨i, hi⟩).info.start_time 1000
         = Int.tdiv (runs.get ⟨j, hj⟩).info.start_time 1000) :
    (ColName.date, runs.map (fun r => Cell.pyDate (Int.tdiv r.info.start_time 1000)))
        ∈ runs_to_pandas runs
    ∧ (runs.map (fun r => Cell.pyDate (Int.tdiv r.info.start_time 1000))).get? i
        = (runs.map (fun r => Cell.pyDate (Int.tdiv r.info.start_time 1000))).get? j := by
  constructor
  · rw [runs_to_pandas, pivotState_spec runs hwf, toData]
    refine List.mem_append_left _ (List.mem_append_left _ (List.mem_append_left _ ?_))
    simp [specState]
  · rw [List.get?_map, List.get?_map, List.get?_eq_get hi, List.get?_eq_get hj]
    show some (Cell.pyDate (Int.tdiv (runs.get ⟨i, hi⟩).info.start_time 1000))
       = some (Cell.pyDate (Int.tdiv (runs.get ⟨j, hj⟩).info.start_time 1000))
    rw [heq]

/-- Witness for C8: start times 1500 and 1001 share the whole second 1. -/
theorem claim_C8_witness :
    (ColName.date, [wRun1, wRun3].map (fun r => Cell.pyDate (Int.tdiv r.info.start_time 1000)))
        ∈ runs_to_pandas [wRun1, wRun3]
    ∧ ([wRun1, wRun3].map (fun r => Cell.pyDate (Int.tdiv r.info.start_time 1000))).get? 0
        = ([wRun1, wRun3].map (fun r => Cell.pyDate (Int.tdiv r.info.start_time 1000))).get? 1 := by
  refine claim_C8 [wRun1, wRun3] ?_ 0 1 ?_ ?_ ?_ <;> decide

/-- C9: a bare int or str experiment id is forwarded to the store as a
one-element list, a list is forwarded as given, and all other arguments
pass through unchanged. -/
theorem claim_C9 (n : Int) (s : String) (l : List ExpId) (f : String)
    (vt : ViewType) (mr : Int) (ob : Option (List String)) :
    search_runs (ExperimentIds.single_int n) f vt mr ob
        = ⟨[ExpId.num n], f, vt, mr, ob⟩
  ∧ search_runs (ExperimentIds.single_str s) f vt mr ob
        = ⟨[ExpId.str s], f, vt, mr, ob⟩
  ∧ search_runs (ExperimentIds.id_list l) f vt mr ob = ⟨l, f, vt, mr, ob⟩ :=
  ⟨rfl, rfl, rfl⟩

/-- C10: the forwarded user id is the `mlflow.user` tag value when that
key is present and `"unknown"` otherwise (also when `tags` is `None` or
empty), and the tag dict — `mlflow.user` included — is forwarded in full
as `RunTag` pairs. -/
theorem claim_C10 (eid : Int) (st : Option Int) (now : Int) (tags : Dict String) :
    ((create_run eid st now none).user_id = "unknown"
       ∧ (create_run eid st now none).tags = [])
  ∧ (create_run eid st now (some [])).user_id = "unknown"
  ∧ ((alookup tags MLFLOW_USER = none
        ∧ (create_run eid st now (some tags)).user_id = "unknown")
     ∨ (∃ v, alookup tags MLFLOW_USER = some v
        ∧ (create_run eid st now (some tags)).user_id = v))
  ∧ (create_run eid st now (some tags)).tags
      = tags.map (fun kv => RunTag.mk kv.1 kv.2) := by
  refine ⟨⟨rfl, rfl⟩, rfl, ?_, rfl⟩
  cases h : alookup tags MLFLOW_USER with
  | none => exact Or.inl ⟨rfl, by simp [create_run, pyDictOrEmpty, h]⟩
  | some v => exact Or.inr ⟨v, rfl, by simp [create_run, pyDictOrEmpty, h]⟩

end MlflowSpec

namespace MlflowSpec

/-! ### Dict and key-list lemmas for the round trip -/

theorem alookup_append (d1 d2 : Dict α) (k : String) :
    alookup (d1 ++ d2) k
      = match alookup d1 k with
        | some v => some v
        | none => alookup d2 k := by
  induction d1 with
  | nil => simp
  | cons kv rest ih =>
    obtain ⟨k', v'⟩ := kv
    rw [List.cons_append, alookup_cons, alookup_cons]
    by_cases h : k' = k <;> simp [h, ih]

theorem keysOf_append (d1 d2 : Dict α) : keysOf (d1 ++ d2) = keysOf d1 ++ keysOf d2 :=
  List.map_append _ _ _

theorem keysOf_recDict (ks : List String) (d : Dict α) :
    keysOf (recDict ks d) = ks.filter (fun k => (alookup d k).isSome) := by
  induction ks with
  | nil => rfl
  | cons k ks ih =>
    rw [recDict, keysOf] at ih
    rw [recDict, List.filterMap_cons, List.filter_cons]
    cases h : alookup d k with
    | none => simpa using ih
    | some v => simp [keysOf, ih]

theorem alookup_recDict_of_not_mem {ks : List String} {d : Dict α} {k : String}
    (h : k ∉ ks) : alookup (recDict ks d) k = none := by
  refine alookup_eq_none.mpr ?_
  rw [keysOf_recDict]
  intro hmem
  exact h (List.mem_filter.mp hmem).1

theorem alookup_recDict {ks : List String} {d : Dict α} {k : String}
    (hnd : ks.Nodup) (hk : k ∈ ks) : alookup (recDict ks d) k = alookup d k := by
  induction ks with
  | nil => cases hk
  | cons k' ks ih =>
    obtain ⟨hk'nin, hnd'⟩ := List.nodup_cons.mp hnd
    rw [recDict, List.filterMap_cons]
    rcases List.mem_cons.mp hk with rfl | hmem
    · cases h : alookup d k with
      | none =>
        simp only [Option.map_none']
        show alookup (recDict ks d) k = none
        exact alookup_recDict_of_not_mem hk'nin
      | some v =>
        simp only [Option.map_some']
        rw [alookup_cons, if_pos rfl]
    · have hne : k' ≠ k := fun he => hk'nin (he ▸ hmem)
      cases h : alookup d k' with
      | none =>
        simp only [Option.map_none']
        show alookup (recDict ks d) k = alookup d k
        exact ih hnd' hmem
      | some v =>
        simp only [Option.map_some']
        rw [alookup_cons, if_neg hne]
        exact ih hnd' hmem

theorem keysOf_specCols {nullC : Cell} {mk : α → Cell} {keep : String → Bool}
    {proj : Run → Dict α} {runs : List Run} :
    keysOf (specCols nullC mk keep proj runs) = colKeys keep proj runs := by
  rw [specCols, keysOf, List.map_map]
  induction colKeys keep proj runs with
  | nil => rfl
  | cons a l ih =>
    rw [List.map_cons, ih]
    rfl

theorem wfDict_specCols {nullC : Cell} {mk : α → Cell} {keep : String → Bool}
    {proj : Run → Dict α} {runs : List Run}
    (hwf : ∀ r ∈ runs, WfDict (proj r)) :
    WfDict (specCols nullC mk keep proj runs) := by
  rw [WfDict, keysOf_specCols]
  exact nodup_colKeys hwf

theorem alookup_specCols {nullC : Cell} {mk : α → Cell} {keep : String → Bool}
    {proj : Run → Dict α} {runs : List Run} {k : String}
    (hwf : ∀ r ∈ runs, WfDict (proj r)) (hk : k ∈ colKeys keep proj runs) :
    alookup (specCols nullC mk keep proj runs) k
      = some (specCol nullC mk proj runs k) :=
  alookup_mem_of_wf (wfDict_specCols hwf) (mem_specCols_of_mem_colKeys hk)

theorem alookup_specCols_of_not_mem {nullC : Cell} {mk : α → Cell} {keep : String → Bool}
    {proj : Run → Dict α} {runs : List Run} {k : String}
    (hk : k ∉ colKeys keep proj runs) :
    alookup (specCols nullC mk keep proj runs) k = none := by
  refine alookup_eq_none.mpr ?_
  rw [keysOf_specCols]
  exact hk

theorem tagKeep_runName_false : tagKeep "mlflow.runName" = false := by decide

theorem tagKeep_parentRunId_false : tagKeep "mlflow.parentRunId" = false := by decide

theorem ne_runName_of_tagKeep {k : String} (h : tagKeep k = true) :
    k ≠ "mlflow.runName" := by
  intro he
  subst he
  exact absurd h (by decide)

theorem ne_parentRunId_of_tagKeep {k : String} (h : tagKeep k = true) :
    k ≠ "mlflow.parentRunId" := by
  intro he
  subst he
  exact absurd h (by decide)

end MlflowSpec

namespace MlflowSpec

theorem colKeysFrom_exists_suffix (keep : String → Bool) (proj : Run → Dict α) :
    ∀ (l : List Run) (acc : List String),
    ∃ s, colKeysFrom keep proj acc l = acc ++ s := by
  intro l
  induction l with
  | nil => intro acc; exact ⟨[], by simp [colKeysFrom]⟩
  | cons r rs ih =>
    intro acc
    rw [colKeysFrom]
    obtain ⟨s, hs⟩ :=
      ih (acc ++ (keysOf (proj r)).filter (fun k => keep k && !hasKey acc k))
    rw [hs, List.append_assoc]
    exact ⟨_, rfl⟩

theorem colKeys_map_rec (keep : String → Bool) (proj : Run → Dict α)
    (runs : List Run) (f : Run → Run)
    (hwf : ∀ r ∈ runs, WfDict (proj r))
    (hkeys : ∀ r ∈ runs, (keysOf (proj (f r))).filter keep
        = (colKeys keep proj runs).filter (fun k => (alookup (proj r) k).isSome)) :
    colKeys keep proj (runs.map f) = colKeys keep proj runs := by
  suffices h : ∀ (suffix pre : List Run), pre ++ suffix = runs →
      colKeysFrom keep proj (colKeys keep proj pre) (suffix.map f)
        = colKeys keep proj runs from h runs [] rfl
  intro suffix
  induction suffix with
  | nil =>
    intro pre hpre
    rw [List.append_nil] at hpre
    rw [List.map_nil, colKeysFrom, hpre]
  | cons r rest ih =>
    intro pre hpre
    have hr : r ∈ runs := by
      rw [← hpre]
      exact List.mem_append_right pre (List.mem_cons_self r rest)
    have hsplit : (pre ++ [r]) ++ rest = runs := by
      rw [← hpre, List.append_assoc]
      rfl
    rw [List.map_cons, colKeysFrom]
    have hKdecomp : ∃ s, colKeys keep proj runs
        = (colKeys keep proj pre
            ++ (keysOf (proj r)).filter
                (fun k => keep k && !hasKey (colKeys keep proj pre) k)) ++ s := by
      obtain ⟨s, hs⟩ :=
        colKeysFrom_exists_suffix keep proj rest (colKeys keep proj (pre ++ [r]))
      refine ⟨s, ?_⟩
      rw [← colKeys_append_single, ← hs, ← hsplit]
      rw [colKeys, colKeys, colKeysFrom_append]
    obtain ⟨s, hK⟩ := hKdecomp
    have hnodup : (colKeys keep proj runs).Nodup := nodup_colKeys hwf
    have hblk : (keysOf (proj (f r))).filter
        (fun k => keep k && !hasKey (colKeys keep proj pre) k)
        = (keysOf (proj r)).filter
            (fun k => keep k && !hasKey (colKeys keep proj pre) k) := by
      have h1 := List.filter_filter (p := fun k => !hasKey (colKeys keep proj pre) k)
        keep (keysOf (proj (f r)))
      have hcomm : (keysOf (proj (f r))).filter
          (fun k => keep k && !hasKey (colKeys keep proj pre) k)
          = (keysOf (proj (f r))).filter
              (fun k => !hasKey (colKeys keep proj pre) k && keep k) :=
        List.filter_congr (fun x _ => Bool.and_comm _ _)
      rw [hcomm, ← h1, hkeys r hr, List.filter_filter, hK,
        List.filter_append, List.filter_append]
      have hacc0 : (colKeys keep proj pre).filter
          (fun k => !hasKey (colKeys keep proj pre) k
            && (alookup (proj r) k).isSome) = [] := by
        refine List.filter_eq_nil.mpr ?_
        intro k hk
        rw [hasKey_eq_true.mpr hk]
        simp
      have hblk1 : ((keysOf (proj r)).filter
            (fun k => keep k && !hasKey (colKeys keep proj pre) k)).filter
          (fun k => !hasKey (colKeys keep proj pre) k
            && (alookup (proj r) k).isSome)
          = (keysOf (proj r)).filter
              (fun k => keep k && !hasKey (colKeys keep proj pre) k) := by
        refine List.filter_eq_self.mpr ?_
        intro k hk
        obtain ⟨hkk, hcond⟩ := List.mem_filter.mp hk
        obtain ⟨-, hnin⟩ := (Bool.and_eq_true _ _).mp hcond
        rw [alookup_isSome.mpr hkk, hnin]
        rfl
      have hs0 : s.filter
          (fun k => !hasKey (colKeys keep proj pre) k
            && (alookup (proj r) k).isSome) = [] := by
        refine List.filter_eq_nil.mpr ?_
        intro k hks hPk
        obtain ⟨-, hsome⟩ := (Bool.and_eq_true _ _).mp hPk
        have hkK : k ∈ colKeys keep proj runs := by
          rw [hK]
          exact List.mem_append_right _ hks
        have hkeep : keep k = true := (mem_colKeys.mp hkK).1
        have hkmem : k ∈ colKeys keep proj (pre ++ [r]) :=
          mem_colKeys.mpr ⟨hkeep, r,
            List.mem_append_right pre (List.mem_cons_self r []),
            alookup_isSome.mp hsome⟩
        rw [colKeys_append_single] at hkmem
        have hdisj := List.disjoint_of_nodup_append (hK ▸ hnodup)
        exact hdisj hkmem hks
      rw [hacc0, hblk1, hs0]
      simp
    rw [hblk, ← colKeys_append_single]
    exact ih (pre ++ [r]) hsplit

end MlflowSpec

namespace MlflowSpec

/-! ### Reading the frame back -/

theorem beq_metricCol (a b : String) :
    (ColName.metricCol a == ColName.metricCol b) = (a == b) := by
  by_cases h : a = b <;> simp [h]

theorem beq_paramCol (a b : String) :
    (ColName.paramCol a == ColName.paramCol b) = (a == b) := by
  by_cases h : a = b <;> simp [h]

theorem beq_tagCol (a b : String) :
    (ColName.tagCol a == ColName.tagCol b) = (a == b) := by
  by_cases h : a = b <;> simp [h]

theorem colOf_toData_date (st : PdState) : colOf (toData st) ColName.date = st.date := rfl

theorem colOf_toData_run_id (st : PdState) :
    colOf (toData st) ColName.run_id = st.run_id := rfl

theorem colOf_toData_run_name (st : PdState) :
    colOf (toData st) ColName.run_name = st.run_name := rfl

theorem colOf_toData_parent_run_id (st : PdState) :
    colOf (toData st) ColName.parent_run_id = st.parent_run_id := rfl

theorem colOf_toData_user_id (st : PdState) :
    colOf (toData st) ColName.user_id = st.user_id := rfl

theorem colOf_toData_metric (st : PdState) (k : String) :
    colOf (toData st) (ColName.metricCol k) = (alookup st.metrics k).getD [] := by
  rw [colOf, toData, List.find?_append, List.find?_append, List.find?_append]
  have h5 : List.find? (fun p => p.1 == ColName.metricCol k)
      [(ColName.date, st.date), (ColName.run_id, st.run_id),
       (ColName.run_name, st.run_name), (ColName.parent_run_id, st.parent_run_id),
       (ColName.user_id, st.user_id)] = none := rfl
  have hcomp : ((fun p : ColName × List Cell => p.1 == ColName.metricCol k)
      ∘ (fun kc : String × List Cell => (ColName.metricCol kc.1, kc.2)))
      = (fun kc : String × List Cell => kc.1 == k) := by
    funext kc
    exact beq_metricCol kc.1 k
  have hp : List.find? (fun p => p.1 == ColName.metricCol k)
      (st.params.map (fun kc => (ColName.paramCol kc.1, kc.2))) = none := by
    refine List.find?_eq_none.mpr ?_
    intro x hx
    obtain ⟨kc, -, rfl⟩ := List.mem_map.mp hx
    simp
  have ht : List.find? (fun p => p.1 == ColName.metricCol k)
      (st.tags.map (fun kc => (ColName.tagCol kc.1, kc.2))) = none := by
    refine List.find?_eq_none.mpr ?_
    intro x hx
    obtain ⟨kc, -, rfl⟩ := List.mem_map.mp hx
    simp
  rw [h5, hp, ht, List.find?_map, hcomp]
  cases h : List.find? (fun kc : String × List Cell => kc.1 == k) st.metrics with
  | none => simp [alookup, h]
  | some kc => simp [alookup, h]

theorem colOf_toData_param (st : PdState) (k : String) :
    colOf (toData st) (ColName.paramCol k) = (alookup st.params k).getD [] := by
  rw [colOf, toData, List.find?_append, List.find?_append, List.find?_append]
  have h5 : List.find? (fun p => p.1 == ColName.paramCol k)
      [(ColName.date, st.date), (ColName.run_id, st.run_id),
       (ColName.run_name, st.run_name), (ColName.parent_run_id, st.parent_run_id),
       (ColName.user_id, st.user_id)] = none := rfl
  have hcomp : ((fun p : ColName × List Cell => p.1 == ColName.paramCol k)
      ∘ (fun kc : String × List Cell => (ColName.paramCol kc.1, kc.2)))
      = (fun kc : String × List Cell => kc.1 == k) := by
    funext kc
    exact beq_paramCol kc.1 k
  have hm : List.find? (fun p => p.1 == ColName.paramCol k)
      (st.metrics.map (fun kc => (ColName.metricCol kc.1, kc.2))) = none := by
    refine List.find?_eq_none.mpr ?_
    intro x hx
    obtain ⟨kc, -, rfl⟩ := List.mem_map.mp hx
    simp
  have ht : List.find? (fun p => p.1 == ColName.paramCol k)
      (st.tags.map (fun kc => (ColName.tagCol kc.1, kc.2))) = none := by
    refine List.find?_eq_none.mpr ?_
    intro x hx
    obtain ⟨kc, -, rfl⟩ := List.mem_map.mp hx
    simp
  rw [h5, hm, ht, List.find?_map, hcomp]
  cases h : List.find? (fun kc : String × List Cell => kc.1 == k) st.params with
  | none => simp [alookup, h]
  | some kc => simp [alookup, h]

theorem colOf_toData_tag (st : PdState) (k : String) :
    colOf (toData st) (ColName.tagCol k) = (alookup st.tags k).getD [] := by
  rw [colOf, toData, List.find?_append, List.find?_append, List.find?_append]
  have h5 : List.find? (fun p => p.1 == ColName.tagCol k)
      [(ColName.date, st.date), (ColName.run_id, st.run_id),
       (ColName.run_name, st.run_name), (ColName.parent_run_id, st.parent_run_id),
       (ColName.user_id, st.user_id)] = none := rfl
  have hcomp : ((fun p : ColName × List Cell => p.1 == ColName.tagCol k)
      ∘ (fun kc : String × List Cell => (ColName.tagCol kc.1, kc.2)))
      = (fun kc : String × List Cell => kc.1 == k) := by
    funext kc
    exact beq_tagCol kc.1 k
  have hm : List.find? (fun p => p.1 == ColName.tagCol k)
      (st.metrics.map (fun kc => (ColName.metricCol kc.1, kc.2))) = none := by
    refine List.find?_eq_none.mpr ?_
    intro x hx
    obtain ⟨kc, -, rfl⟩ := List.mem_map.mp hx
    simp
  have hp : List.find? (fun p => p.1 == ColName.tagCol k)
      (st.params.map (fun kc => (ColName.paramCol kc.1, kc.2))) = none := by
    refine List.find?_eq_none.mpr ?_
    intro x hx
    obtain ⟨kc, -, rfl⟩ := List.mem_map.mp hx
    simp
  rw [h5, hm, hp, List.find?_map, hcomp]
  cases h : List.find? (fun kc : String × List Cell => kc.1 == k) st.tags with
  | none => simp [alookup, h]
  | some kc => simp [alookup, h]

theorem metricKeysOf_toData (st : PdState) :
    metricKeysOf (toData st) = keysOf st.metrics := by
  rw [metricKeysOf, toData, List.filterMap_append, List.filterMap_append,
    List.filterMap_append]
  have h5 : List.filterMap
      (fun p : ColName × List Cell =>
        match p.1 with | ColName.metricCol k => some k | _ => none)
      [(ColName.date, st.date), (ColName.run_id, st.run_id),
       (ColName.run_name, st.run_name), (ColName.parent_run_id, st.parent_run_id),
       (ColName.user_id, st.user_id)] = [] := rfl
  have hm : List.filterMap
      (fun p : ColName × List Cell =>
        match p.1 with | ColName.metricCol k => some k | _ => none)
      (st.metrics.map (fun kc => (ColName.metricCol kc.1, kc.2)))
      = keysOf st.metrics := by
    rw [List.filterMap_map]
    exact congrFun (List.filterMap_eq_map (fun kc : String × List Cell => kc.1)) st.metrics
  have hp : List.filterMap
      (fun p : ColName × List Cell =>
        match p.1 with | ColName.metricCol k => some k | _ => none)
      (st.params.map (fun kc => (ColName.paramCol kc.1, kc.2))) = [] := by
    refine List.filterMap_eq_nil.mpr ?_
    intro x hx
    obtain ⟨kc, -, rfl⟩ := List.mem_map.mp hx
    rfl
  have ht : List.filterMap
      (fun p : ColName × List Cell =>
        match p.1 with | ColName.metricCol k => some k | _ => none)
      (st.tags.map (fun kc => (ColName.tagCol kc.1, kc.2))) = [] := by
    refine List.filterMap_eq_nil.mpr ?_
    intro x hx
    obtain ⟨kc, -, rfl⟩ := List.mem_map.mp hx
    rfl
  rw [h5, hm, hp, ht]
  simp

theorem paramKeysOf_toData (st : PdState) :
    paramKeysOf (toData st) = keysOf st.params := by
  rw [paramKeysOf, toData, List.filterMap_append, List.filterMap_append,
    List.filterMap_append]
  have h5 : List.filterMap
      (fun p : ColName × List Cell =>
        match p.1 with | ColName.paramCol k => some k | _ => none)
      [(ColName.date, st.date), (ColName.run_id, st.run_id),
       (ColName.run_name, st.run_name), (ColName.parent_run_id, st.parent_run_id),
       (ColName.user_id, st.user_id)] = [] := rfl
  have hp : List.filterMap
      (fun p : ColName × List Cell =>
        match p.1 with | ColName.paramCol k => some k | _ => none)
      (st.params.map (fun kc => (ColName.paramCol kc.1, kc.2)))
      = keysOf st.params := by
    rw [List.filterMap_map]
    exact congrFun (List.filterMap_eq_map (fun kc : String × List Cell => kc.1)) st.params
  have hm : List.filterMap
      (fun p : ColName × List Cell =>
        match p.1 with | ColName.paramCol k => some k | _ => none)
      (st.metrics.map (fun kc => (ColName.metricCol kc.1, kc.2))) = [] := by
    refine List.filterMap_eq_nil.mpr ?_
    intro x hx
    obtain ⟨kc, -, rfl⟩ := List.mem_map.mp hx
    rfl
  have ht : List.filterMap
      (fun p : ColName × List Cell =>
        match p.1 with | ColName.paramCol k => some k | _ => none)
      (st.tags.map (fun kc => (ColName.tagCol kc.1, kc.2))) = [] := by
    refine List.filterMap_eq_nil.mpr ?_
    intro x hx
    obtain ⟨kc, -, rfl⟩ := List.mem_map.mp hx
    rfl
  rw [h5, hm, hp, ht]
  simp

theorem tagKeysOf_toData (st : PdState) :
    tagKeysOf (toData st) = keysOf st.tags := by
  rw [tagKeysOf, toData, List.filterMap_append, List.filterMap_append,
    List.filterMap_append]
  have h5 : List.filterMap
      (fun p : ColName × List Cell =>
        match p.1 with | ColName.tagCol k => some k | _ => none)
      [(ColName.date, st.date), (ColName.run_id, st.run_id),
       (ColName.run_name, st.run_name), (ColName.parent_run_id, st.parent_run_id),
       (ColName.user_id, st.user_id)] = [] := rfl
  have ht : List.filterMap
      (fun p : ColName × List Cell =>
        match p.1 with | ColName.tagCol k => some k | _ => none)
      (st.tags.map (fun kc => (ColName.tagCol kc.1, kc.2)))
      = keysOf st.tags := by
    rw [List.filterMap_map]
    exact congrFun (List.filterMap_eq_map (fun kc : String × List Cell => kc.1)) st.tags
  have hm : List.filterMap
      (fun p : ColName × List Cell =>
        match p.1 with | ColName.tagCol k => some k | _ => none)
      (st.metrics.map (fun kc => (ColName.metricCol kc.1, kc.2))) = [] := by
    refine List.filterMap_eq_nil.mpr ?_
    intro x hx
    obtain ⟨kc, -, rfl⟩ := List.mem_map.mp hx
    rfl
  have hp : List.filterMap
      (fun p : ColName × List Cell =>
        match p.1 with | ColName.tagCol k => some k | _ => none)
      (st.params.map (fun kc => (ColName.paramCol kc.1, kc.2))) = [] := by
    refine List.filterMap_eq_nil.mpr ?_
    intro x hx
    obtain ⟨kc, -, rfl⟩ := List.mem_map.mp hx
    rfl
  rw [h5, hm, hp, ht]
  simp

end MlflowSpec

namespace MlflowSpec

theorem getD_map_lt {β γ : Type} {l : List β} {j : Nat} (g : β → γ)
    (hj : j < l.length) (d : γ) :
    (l.map g).getD j d = g (l.get ⟨j, hj⟩) := by
  rw [List.getD_eq_getElem?_getD, List.getElem?_map, List.getElem?_eq_getElem hj]
  rfl

theorem cellOptStr_tagOrNone (d : Dict String) (k : String) :
    cellOptStr (tagOrNone d k) = alookup d k := by
  rw [tagOrNone]
  cases alookup d k <;> rfl

theorem cellOptNum_dictCell (d : Dict Int) (k : String) :
    cellOptNum (dictCell Cell.pyNaN Cell.pyNum d k) = alookup d k := by
  rw [dictCell]
  cases alookup d k <;> rfl

theorem cellOptStr_dictCell (d : Dict String) (k : String) :
    cellOptStr (dictCell Cell.pyNone Cell.pyStr d k) = alookup d k := by
  rw [dictCell]
  cases alookup d k <;> rfl

theorem recDict_from_frame {nullC : Cell} {mk : α → Cell} {keep : String → Bool}
    {proj : Run → Dict α} (cellOpt : Cell → Option α) (runs : List Run)
    (hwf : ∀ r ∈ runs, WfDict (proj r))
    (hcell : ∀ (d : Dict α) (k : String), cellOpt (dictCell nullC mk d k) = alookup d k)
    (j : Nat) (hj : j < runs.length) :
    (colKeys keep proj runs).filterMap
      (fun k =>
        (cellOpt (((alookup (specCols nullC mk keep proj runs) k).getD []).getD j
          Cell.pyNone)).map (fun v => (k, v)))
      = recDict (colKeys keep proj runs) (proj (runs.get ⟨j, hj⟩)) := by
  rw [recDict]
  refine List.filterMap_congr ?_
  intro k hk
  rw [alookup_specCols hwf hk, Option.getD_some, specCol,
    getD_map_lt (fun r => dictCell nullC mk (proj r) k) hj Cell.pyNone, hcell]

end MlflowSpec

namespace MlflowSpec

theorem rowToRun_spec (runs : List Run) (hwf : ∀ r ∈ runs, WfRun r)
    (j : Nat) (hj : j < runs.length) :
    rowToRun (toData (specState runs)) j
      = recRun (colKeys (fun _ => true) (fun r => r.data.metrics) runs)
          (colKeys (fun _ => true) (fun r => r.data.params) runs)
          (colKeys tagKeep (fun r => r.data.tags) runs)
          (runs.get ⟨j, hj⟩) := by
  have hwfm : ∀ r ∈ runs, WfDict r.data.metrics := fun r hr => (hwf r hr).1
  have hwfp : ∀ r ∈ runs, WfDict r.data.params := fun r hr => (hwf r hr).2.1
  have hwft : ∀ r ∈ runs, WfDict r.data.tags := fun r hr => (hwf r hr).2.2
  rw [rowToRun]
  simp only [colOf_toData_run_id, colOf_toData_user_id, colOf_toData_date,
    colOf_toData_run_name, colOf_toData_parent_run_id,
    colOf_toData_metric, colOf_toData_param, colOf_toData_tag,
    metricKeysOf_toData, paramKeysOf_toData, tagKeysOf_toData,
    specState, keysOf_specCols]
  rw [getD_map_lt (fun r => Cell.pyStr r.info.run_id) hj Cell.pyNone,
    getD_map_lt (fun r => Cell.pyStr r.info.user_id) hj Cell.pyNone,
    getD_map_lt (fun r => Cell.pyDate (Int.tdiv r.info.start_time 1000)) hj Cell.pyNone,
    getD_map_lt (fun r => tagOrNone r.data.tags "mlflow.runName") hj Cell.pyNone,
    getD_map_lt (fun r => tagOrNone r.data.tags "mlflow.parentRunId") hj Cell.pyNone]
  rw [recDict_from_frame cellOptNum runs hwfm cellOptNum_dictCell j hj,
    recDict_from_frame cellOptStr runs hwfp cellOptStr_dictCell j hj,
    recDict_from_frame cellOptStr runs hwft cellOptStr_dictCell j hj]
  simp only [cellOptStr_tagOrNone]
  rfl

theorem reconstruct_spec (runs : List Run) (hwf : ∀ r ∈ runs, WfRun r) :
    reconstruct (toData (specState runs))
      = runs.map (recRun (colKeys (fun _ => true) (fun r => r.data.metrics) runs)
          (colKeys (fun _ => true) (fun r => r.data.params) runs)
          (colKeys tagKeep (fun r => r.data.tags) runs)) := by
  rw [reconstruct, colOf_toData_run_id]
  have hlen : (specState runs).run_id.length = runs.length := by
    simp [specState]
  refine List.ext_get ?_ ?_
  · simp [hlen]
  · intro n h1 h2
    have hn : n < runs.length := by
      simpa using h2
    have hlhs : (List.map (rowToRun (toData (specState runs)))
        (List.range (specState runs).run_id.length)).get ⟨n, h1⟩
        = rowToRun (toData (specState runs)) n := by
      rw [List.get_map]
      congr 1
      exact List.get_range n _
    have hrhs : (List.map
        (recRun (colKeys (fun _ => true) (fun r => r.data.metrics) runs)
          (colKeys (fun _ => true) (fun r => r.data.params) runs)
          (colKeys tagKeep (fun r => r.data.tags) runs)) runs).get ⟨n, h2⟩
        = recRun (colKeys (fun _ => true) (fun r => r.data.metrics) runs)
            (colKeys (fun _ => true) (fun r => r.data.params) runs)
            (colKeys tagKeep (fun r => r.data.tags) runs)
            (runs.get ⟨n, hn⟩) := by
      rw [List.get_map]
    rw [hlhs, hrhs]
    exact rowToRun_spec runs hwf n hn

end MlflowSpec

namespace MlflowSpec

theorem specCols_map_rec (nullC : Cell) (mk : α → Cell) (keep : String → Bool)
    (proj : Run → Dict α) (runs : List Run) (f : Run → Run)
    (hwf : ∀ r ∈ runs, WfDict (proj r))
    (hkeys : ∀ r ∈ runs, (keysOf (proj (f r))).filter keep
        = (colKeys keep proj runs).filter (fun k => (alookup (proj r) k).isSome))
    (hlk : ∀ r ∈ runs, ∀ k ∈ colKeys keep proj runs,
        alookup (proj (f r)) k = alookup (proj r) k) :
    specCols nullC mk keep proj (runs.map f) = specCols nullC mk keep proj runs := by
  rw [specCols, specCols, colKeys_map_rec keep proj runs f hwf hkeys]
  refine List.map_congr_left ?_
  intro k hk
  congr 1
  rw [specCol, specCol, List.map_map]
  refine List.map_congr_left ?_
  intro r hr
  show dictCell nullC mk (proj (f r)) k = dictCell nullC mk (proj r) k
  rw [dictCell, dictCell, hlk r hr k hk]

theorem alookup_optEntry (k k0 : String) (o : Option String) :
    alookup (optEntry k o) k0 = if k = k0 then o else none := by
  cases o with
  | none => simp [optEntry]
  | some v =>
    rw [optEntry, alookup_cons]
    by_cases h : k = k0 <;> simp [h]

theorem alookup_recTags (Kt : List String) (d : Dict String)
    (hKt : ∀ k ∈ Kt, tagKeep k = true) (ht : Kt.Nodup) (k0 : String)
    (hk0 : k0 = "mlflow.runName" ∨ k0 = "mlflow.parentRunId" ∨ k0 ∈ Kt) :
    alookup (optEntry "mlflow.runName" (alookup d "mlflow.runName")
      ++ optEntry "mlflow.parentRunId" (alookup d "mlflow.parentRunId")
      ++ recDict Kt d) k0 = alookup d k0 := by
  rw [alookup_append, alookup_append, alookup_optEntry, alookup_optEntry]
  rcases hk0 with rfl | rfl | hmem
  · rw [if_pos rfl]
    have hnotin : "mlflow.runName" ∉ Kt := by
      intro hmem
      exact absurd (hKt _ hmem) (by decide)
    cases h1 : alookup d "mlflow.runName" with
    | some v => rfl
    | none =>
      rw [if_neg (by decide)]
      show alookup (recDict Kt d) "mlflow.runName" = none
      exact alookup_recDict_of_not_mem hnotin
  · rw [if_neg (by decide), if_pos rfl]
    have hnotin : "mlflow.parentRunId" ∉ Kt := by
      intro hmem
      exact absurd (hKt _ hmem) (by decide)
    cases h2 : alookup d "mlflow.parentRunId" with
    | some v => rfl
    | none =>
      show alookup (recDict Kt d) "mlflow.parentRunId" = none
      exact alookup_recDict_of_not_mem hnotin
  · have hkeep := hKt k0 hmem
    rw [if_neg (Ne.symm (ne_runName_of_tagKeep hkeep)),
      if_neg (Ne.symm (ne_parentRunId_of_tagKeep hkeep))]
    show alookup (recDict Kt d) k0 = alookup d k0
    exact alookup_recDict ht hmem

theorem tagOrNone_congr {d1 d2 : Dict String} {k : String}
    (h : alookup d1 k = alookup d2 k) : tagOrNone d1 k = tagOrNone d2 k := by
  rw [tagOrNone, tagOrNone, h]

end MlflowSpec

namespace MlflowSpec

theorem keysOf_optEntry_none (k : String) : keysOf (optEntry k none) = [] := rfl

theorem mem_keysOf_optEntry {x k : String} {o : Option String}
    (h : x ∈ keysOf (optEntry k o)) : x = k := by
  cases o with
  | none => cases h
  | some v => simpa [optEntry, keysOf] using h

theorem filter_tagKeep_optEntry_runName (o : Option String) :
    (keysOf (optEntry "mlflow.runName" o)).filter tagKeep = [] := by
  cases o with
  | none => rfl
  | some v => simp [optEntry, keysOf, List.filter_cons, tagKeep_runName_false]

theorem filter_tagKeep_optEntry_parent (o : Option String) :
    (keysOf (optEntry "mlflow.parentRunId" o)).filter tagKeep = [] := by
  cases o with
  | none => rfl
  | some v => simp [optEntry, keysOf, List.filter_cons, tagKeep_parentRunId_false]

theorem filter_tagKeep_presKt (Kt : List String)
    (hKt : ∀ k ∈ Kt, tagKeep k = true) (p : String → Bool) :
    (Kt.filter p).filter tagKeep = Kt.filter p :=
  List.filter_eq_self.mpr (fun k hk => hKt k (List.mem_filter.mp hk).1)

theorem hkeys_recTags (Km Kp Kt : List String)
    (hKt : ∀ k ∈ Kt, tagKeep k = true) (r : Run) :
    (keysOf ((recRun Km Kp Kt r).data.tags)).filter tagKeep
      = Kt.filter (fun k => (alookup r.data.tags k).isSome) := by
  show (keysOf (optEntry "mlflow.runName" (alookup r.data.tags "mlflow.runName")
      ++ optEntry "mlflow.parentRunId" (alookup r.data.tags "mlflow.parentRunId")
      ++ recDict Kt r.data.tags)).filter tagKeep = _
  rw [keysOf_append, keysOf_append, List.filter_append, List.filter_append,
    filter_tagKeep_optEntry_runName, filter_tagKeep_optEntry_parent, keysOf_recDict,
    filter_tagKeep_presKt Kt hKt _]
  simp

theorem wfRun_recRun (Km Kp Kt : List String) (r : Run)
    (hm : Km.Nodup) (hp : Kp.Nodup) (ht : Kt.Nodup)
    (hKt : ∀ k ∈ Kt, tagKeep k = true) : WfRun (recRun Km Kp Kt r) := by
  refine ⟨?_, ?_, ?_⟩
  · show WfDict (recDict Km r.data.metrics)
    rw [WfDict, keysOf_recDict]
    exact hm.filter _
  · show WfDict (recDict Kp r.data.params)
    rw [WfDict, keysOf_recDict]
    exact hp.filter _
  · show WfDict (optEntry "mlflow.runName" (alookup r.data.tags "mlflow.runName")
      ++ optEntry "mlflow.parentRunId" (alookup r.data.tags "mlflow.parentRunId")
      ++ recDict Kt r.data.tags)
    rw [WfDict, keysOf_append, keysOf_append, keysOf_recDict]
    refine List.Nodup.append (List.Nodup.append ?_ ?_ ?_) (ht.filter _) ?_
    · cases alookup r.data.tags "mlflow.runName" <;> simp [optEntry, keysOf]
    · cases alookup r.data.tags "mlflow.parentRunId" <;> simp [optEntry, keysOf]
    · intro x hxA hxB
      have h1 := mem_keysOf_optEntry hxA
      have h2 := mem_keysOf_optEntry hxB
      subst h1
      exact absurd h2 (by decide)
    · intro x hx hx'
      have hkeepx : tagKeep x = false := by
        rcases List.mem_append.mp hx with hxA | hxB
        · rw [mem_keysOf_optEntry hxA]
          exact tagKeep_runName_false
        · rw [mem_keysOf_optEntry hxB]
          exact tagKeep_parentRunId_false
      have hxKt : x ∈ Kt := (List.mem_filter.mp hx').1
      rw [hKt x hxKt] at hkeepx
      cases hkeepx

end MlflowSpec

namespace MlflowSpec

theorem specState_map_rec (runs : List Run) (hwf : ∀ r ∈ runs, WfRun r) :
    specState (runs.map (recRun
        (colKeys (fun _ => true) (fun r => r.data.metrics) runs)
        (colKeys (fun _ => true) (fun r => r.data.params) runs)
        (colKeys tagKeep (fun r => r.data.tags) runs)))
      = specState runs := by
  have hwfm : ∀ r ∈ runs, WfDict r.data.metrics := fun r hr => (hwf r hr).1
  have hwfp : ∀ r ∈ runs, WfDict r.data.params := fun r hr => (hwf r hr).2.1
  have hwft : ∀ r ∈ runs, WfDict r.data.tags := fun r hr => (hwf r hr).2.2
  have hKt : ∀ k ∈ colKeys tagKeep (fun r => r.data.tags) runs, tagKeep k = true :=
    fun k hk => (mem_colKeys.mp hk).1
  have hmnd : (colKeys (fun _ => true) (fun r => r.data.metrics) runs).Nodup :=
    nodup_colKeys hwfm
  have hpnd : (colKeys (fun _ => true) (fun r => r.data.params) runs).Nodup :=
    nodup_colKeys hwfp
  have htnd : (colKeys tagKeep (fun r => r.data.tags) runs).Nodup :=
    nodup_colKeys hwft
  rw [specState, specState]
  congr 1
  · rw [List.map_map]
    refine List.map_congr_left ?_
    intro r hr
    show Cell.pyDate (Int.tdiv (Int.tdiv r.info.start_time 1000 * 1000) 1000)
      = Cell.pyDate (Int.tdiv r.info.start_time 1000)
    rw [Int.mul_tdiv_cancel _ (by norm_num)]
  · rw [List.map_map]
    exact List.map_congr_left (fun r hr => rfl)
  · rw [List.map_map]
    refine List.map_congr_left ?_
    intro r hr
    show tagOrNone ((recRun _ _ _ r).data.tags) "mlflow.runName"
      = tagOrNone r.data.tags "mlflow.runName"
    refine tagOrNone_congr ?_
    exact alookup_recTags _ r.data.tags hKt htnd _ (Or.inl rfl)
  · rw [List.map_map]
    refine List.map_congr_left ?_
    intro r hr
    show tagOrNone ((recRun _ _ _ r).data.tags) "mlflow.parentRunId"
      = tagOrNone r.data.tags "mlflow.parentRunId"
    refine tagOrNone_congr ?_
    exact alookup_recTags _ r.data.tags hKt htnd _ (Or.inr (Or.inl rfl))
  · rw [List.map_map]
    exact List.map_congr_left (fun r hr => rfl)
  · refine specCols_map_rec _ _ _ _ runs _ hwfm ?_ ?_
    · intro r hr
      show (keysOf (recDict (colKeys (fun _ => true) (fun r => r.data.metrics) runs)
          r.data.metrics)).filter (fun _ => true) = _
      rw [keysOf_recDict, List.filter_true]
    · intro r hr k hk
      show alookup (recDict (colKeys (fun _ => true) (fun r => r.data.metrics) runs)
          r.data.metrics) k = alookup r.data.metrics k
      exact alookup_recDict hmnd hk
  · refine specCols_map_rec _ _ _ _ runs _ hwfp ?_ ?_
    · intro r hr
      show (keysOf (recDict (colKeys (fun _ => true) (fun r => r.data.params) runs)
          r.data.params)).filter (fun _ => true) = _
      rw [keysOf_recDict, List.filter_true]
    · intro r hr k hk
      show alookup (recDict (colKeys (fun _ => true) (fun r => r.data.params) runs)
          r.data.params) k = alookup r.data.params k
      exact alookup_recDict hpnd hk
  · refine specCols_map_rec _ _ _ _ runs _ hwft ?_ ?_
    · intro r hr
      exact hkeys_recTags _ _ _ hKt r
    · intro r hr k hk
      exact alookup_recTags _ r.data.tags hKt htnd k (Or.inr (Or.inr hk))

end MlflowSpec

namespace MlflowSpec

/-- C7: the pivot is idempotent on its own output: rebuilding Run-like
records from the rows of `runs_to_pandas` and pivoting again reproduces
the table (here even with the same column order). -/
theorem claim_C7 (runs : List Run) (hwf : ∀ r ∈ runs, WfRun r) :
    runs_to_pandas (reconstruct (runs_to_pandas runs)) = runs_to_pandas runs := by
  have hwfm : ∀ r ∈ runs, WfDict r.data.metrics := fun r hr => (hwf r hr).1
  have hwfp : ∀ r ∈ runs, WfDict r.data.params := fun r hr => (hwf r hr).2.1
  have hwft : ∀ r ∈ runs, WfDict r.data.tags := fun r hr => (hwf r hr).2.2
  have hKt : ∀ k ∈ colKeys tagKeep (fun r => r.data.tags) runs, tagKeep k = true :=
    fun k hk => (mem_colKeys.mp hk).1
  have hmnd : (colKeys (fun _ => true) (fun r => r.data.metrics) runs).Nodup :=
    nodup_colKeys hwfm
  have hpnd : (colKeys (fun _ => true) (fun r => r.data.params) runs).Nodup :=
    nodup_colKeys hwfp
  have htnd : (colKeys tagKeep (fun r => r.data.tags) runs).Nodup :=
    nodup_colKeys hwft
  rw [show runs_to_pandas runs = toData (specState runs) from
    by rw [runs_to_pandas, pivotState_spec runs hwf]]
  rw [reconstruct_spec runs hwf]
  have hwfrec : ∀ r' ∈ runs.map (recRun
      (colKeys (fun _ => true) (fun r => r.data.metrics) runs)
      (colKeys (fun _ => true) (fun r => r.data.params) runs)
      (colKeys tagKeep (fun r => r.data.tags) runs)), WfRun r' := by
    intro r' hr'
    obtain ⟨r, -, rfl⟩ := List.mem_map.mp hr'
    exact wfRun_recRun _ _ _ r hmnd hpnd htnd hKt
  rw [runs_to_pandas, pivotState_spec _ hwfrec, specState_map_rec runs hwf]

/-- Witness for C7 at two concrete runs. -/
theorem claim_C7_witness :
    runs_to_pandas (reconstruct (runs_to_pandas [wRun1, wRun2]))
      = runs_to_pandas [wRun1, wRun2] :=
  claim_C7 [wRun1, wRun2] (by decide)

end MlflowSpec
